import Mathlib

/-!
Shallow embedding of the cannon-compiler lexical front end
(src/span.rs, src/lex.rs, src/main.rs) and proofs about it.

The lexer `do_group`/`lex`, the renderer `highlight_group`/`highlight`,
the data model (`Pos`, `Span`, `Token`, `Group`, `Lexeme`) and the error
type `Error` are translated directly from the Rust source.  Rust's
mutable `Peekable<Iterator>` plus `&mut Pos` state is made explicit:
each scanning function takes the remaining character list and the
current position and returns the produced lexemes together with the
final position and the unconsumed rest.  `todo!()` and `panic!` aborts
are modelled by a dedicated `LexOutcome.panic` constructor, kept apart
from the `Error` values the Rust code returns with `Err`.
-/

set_option maxRecDepth 4000

namespace Cannon

/-- Source position: `Pos(row, column)`, both 1-indexed (src/span.rs). -/
structure Pos where
  row : Nat
  col : Nat
  deriving DecidableEq, Repr

/-- Span of a lexeme.  The Rust field `end` is called `stop` here because
`end` is a Lean keyword. -/
structure Span where
  start : Pos
  stop : Pos
  deriving DecidableEq, Repr

/-- Token kinds (src/lex.rs `TokenType`). -/
inductive TokenType where
  | Comment
  | Id
  | Num
  | Punct
  | String
  deriving DecidableEq, Repr

/-- A classified token with its exact captured text (src/lex.rs `Token`). -/
structure Token where
  ty : TokenType
  body : String
  deriving DecidableEq, Repr

/-- Group kinds (src/lex.rs `GroupType`). -/
inductive GroupType where
  | Paren
  | Bracket
  | Brace
  deriving DecidableEq, Repr

/-- Closing delimiter of a group kind (src/lex.rs `GroupType::end_char`). -/
def GroupType.end_char : GroupType → Char
  | .Paren => ')'
  | .Bracket => ']'
  | .Brace => '\x7d'

/-- Opening delimiter classification (src/lex.rs `GroupType::from_start_char`). -/
def GroupType.from_start_char (c : Char) : Option GroupType :=
  if c = '(' then some .Paren
  else if c = '[' then some .Bracket
  else if c = '\x7b' then some .Brace
  else none

/-- A lexeme: a token or a bracket group, always paired with a span
(src/lex.rs `Lexeme` / `LexemeBody` / `Group`, flattened into one
inductive so that nesting is direct). -/
inductive Lexeme where
  | token (span : Span) (t : Token)
  | group (span : Span) (gt : GroupType) (body : List Lexeme)

/-- Span accessor (Rust: the `span` field of `Lexeme`). -/
def Lexeme.span : Lexeme → Span
  | .token sp _ => sp
  | .group sp _ _ => sp

/-- Keyword predicate on tokens (src/lex.rs `Token::is_keyword`). -/
def Token.is_keyword (t : Token) : Bool :=
  t.ty = TokenType.Id && (t.body = "fn" || t.body = "pub" || t.body = "type")

/-- The lexer error enum (src/main.rs `Error`).  The `ReadError(io::Error)`
variant is I/O-side and unreachable from `lex`, so it is not modelled. -/
inductive Error where
  | Eof (pos : Pos)
  | UnexpectedChar (c : Char) (pos : Pos)
  deriving DecidableEq, Repr

/-- Outcome of running lexer code: a returned value, a returned `Err`
value, or a process abort (Rust `todo!()` / `panic!`), which is a
distinct outcome because aborting is not returning an error value. -/
inductive LexOutcome (α : Type) where
  | ok (val : α)
  | err (e : Error)
  | panic (msg : String)
  deriving DecidableEq, Repr

/-- Advance one column (Rust `pos.1 += 1`). -/
def stepCol (p : Pos) : Pos := ⟨p.row, p.col + 1⟩

/-- Model of `unicode_xid::UnicodeXID::is_xid_start`, an external crate;
restricted to its ASCII fragment (the letters). -/
def isXidStart (c : Char) : Bool := c.isAlpha

/-- Model of `unicode_xid::UnicodeXID::is_xid_continue`, an external
crate; restricted to its ASCII fragment (letters, digits, underscore). -/
def isXidContinue (c : Char) : Bool := c.isAlpha || c.isDigit || c == '_'

/-- Model of Rust `char::is_numeric`, restricted to its ASCII fragment
(the decimal digits). -/
def isNumeric (c : Char) : Bool := c.isDigit

/-- The string-literal scanning loop inside the `Some('"')` arm of
`do_group` (src/lex.rs lines 292-304).  Called with the characters after
the opening quote and the position one past the opening quote; returns
the captured body, the position of the closing quote, and the characters
after the closing quote. -/
def scanString : List Char → Pos → LexOutcome (String × Pos × List Char)
  | [], pos => .err (.Eof pos)
  | c :: rest, pos =>
    if c = '\n' then .err (.UnexpectedChar c pos)
    else if c = '\\' then .panic "not yet implemented"
    else if c = '"' then .ok ("", pos, rest)
    else
      match scanString rest (stepCol pos) with
      | .ok (text, qpos, rest2) => .ok (String.mk (c :: text.data), qpos, rest2)
      | .err e => .err e
      | .panic m => .panic m

/-- Pushing one lexeme onto the front of a scan continuation's result
(the Rust loop accumulates into `result` via `result.push`). -/
def consLex (l : Lexeme) :
    LexOutcome (List Lexeme × Pos × List Char) →
    LexOutcome (List Lexeme × Pos × List Char)
  | .ok (ls, p, r) => .ok (l :: ls, p, r)
  | .err e => .err e
  | .panic m => .panic m

/-- The core group scanner (src/lex.rs `do_group`), one nesting level.
The Rust loop over a `Peekable` iterator with `&mut Pos` becomes
explicit recursion over the remaining character list; the `fuel`
argument only makes the recursion obviously terminating (the Rust loop
consumes at least one character per iteration, so `length + 1` fuel, as
supplied by `lex`, always suffices).  Arms appear in source order. -/
def do_group : Nat → List Char → Pos → Option Char →
    LexOutcome (List Lexeme × Pos × List Char)
  | 0, _, _, _ => .panic "embedding fuel exhausted"
  | fuel + 1, chars, pos, end_char =>
    match chars with
    | [] =>
      -- Rust: `x if x == end_char` with `x = None`, else the `None` arm.
      if end_char = none then .ok ([], pos, [])
      else .err (.Eof pos)
    | c :: rest =>
      if some c = end_char then
        .ok ([], stepCol pos, rest)
      else if c = ' ' then
        do_group fuel rest (stepCol pos) end_char
      else if c = '\n' then
        do_group fuel rest ⟨pos.row + 1, 1⟩ end_char
      else if isXidStart c || c = '_' then
        let taken := rest.takeWhile isXidContinue
        let fin : Pos := ⟨pos.row, pos.col + 1 + taken.length⟩
        consLex (.token ⟨pos, fin⟩ ⟨.Id, String.mk (c :: taken)⟩)
          (do_group fuel (rest.dropWhile isXidContinue) fin end_char)
      else if isNumeric c then
        let taken := rest.takeWhile isXidContinue
        let fin : Pos := ⟨pos.row, pos.col + 1 + taken.length⟩
        consLex (.token ⟨pos, fin⟩ ⟨.Num, String.mk (c :: taken)⟩)
          (do_group fuel (rest.dropWhile isXidContinue) fin end_char)
      else if c = '#' ∨ c = ';' ∨ c = '=' then
        consLex (.token ⟨pos, stepCol pos⟩ ⟨.Punct, String.mk [c]⟩)
          (do_group fuel rest (stepCol pos) end_char)
      else if c = ':' then
        match rest with
        | ':' :: rest2 =>
          consLex (.token ⟨pos, ⟨pos.row, pos.col + 2⟩⟩ ⟨.Punct, "::"⟩)
            (do_group fuel rest2 ⟨pos.row, pos.col + 2⟩ end_char)
        | _ =>
          consLex (.token ⟨pos, stepCol pos⟩ ⟨.Punct, ":"⟩)
            (do_group fuel rest (stepCol pos) end_char)
      else if c = '*' then
        -- Rust: `let mut punct = String::from("-")` — the star arm
        -- really emits body "-", not "*".
        match rest with
        | '=' :: rest2 =>
          consLex (.token ⟨pos, ⟨pos.row, pos.col + 2⟩⟩ ⟨.Punct, "-="⟩)
            (do_group fuel rest2 ⟨pos.row, pos.col + 2⟩ end_char)
        | _ =>
          consLex (.token ⟨pos, stepCol pos⟩ ⟨.Punct, "-"⟩)
            (do_group fuel rest (stepCol pos) end_char)
      else if c = '-' then
        match rest with
        | d :: rest2 =>
          if d = '>' ∨ d = '-' ∨ d = '=' then
            consLex (.token ⟨pos, ⟨pos.row, pos.col + 2⟩⟩ ⟨.Punct, String.mk ['-', d]⟩)
              (do_group fuel rest2 ⟨pos.row, pos.col + 2⟩ end_char)
          else
            consLex (.token ⟨pos, stepCol pos⟩ ⟨.Punct, "-"⟩)
              (do_group fuel rest (stepCol pos) end_char)
        | [] =>
          consLex (.token ⟨pos, stepCol pos⟩ ⟨.Punct, "-"⟩)
            (do_group fuel [] (stepCol pos) end_char)
      else if c = '/' then
        match rest with
        | '/' :: rest2 =>
          let taken := rest2.takeWhile (fun ch => !(ch = '\n' : Bool))
          let fin : Pos := ⟨pos.row, pos.col + 2 + taken.length⟩
          consLex (.token ⟨pos, fin⟩ ⟨.Comment, String.mk ('/' :: '/' :: taken)⟩)
            (do_group fuel (rest2.dropWhile (fun ch => !(ch = '\n' : Bool))) fin end_char)
        | '*' :: _ => .panic "not yet implemented: Multiline?"
        | _ =>
          -- Rust builds this span with `Lexeme::new(start, ..)`, i.e.
          -- `From<Pos> for Span`: end = start advanced one column.
          consLex (.token ⟨pos, stepCol pos⟩ ⟨.Punct, "/"⟩)
            (do_group fuel rest (stepCol pos) end_char)
      else if c = '"' then
        match scanString rest (stepCol pos) with
        | .ok (text, qpos, rest2) =>
          consLex (.token ⟨pos, stepCol qpos⟩ ⟨.String, text⟩)
            (do_group fuel rest2 (stepCol qpos) end_char)
        | .err e => .err e
        | .panic m => .panic m
      else
        match GroupType.from_start_char c with
        | some gt =>
          match do_group fuel rest (stepCol pos) (some gt.end_char) with
          | .ok (inner, inner_end, rest2) =>
            consLex (.group ⟨pos, inner_end⟩ gt inner)
              (do_group fuel rest2 inner_end end_char)
          | .err e => .err e
          | .panic m => .panic m
        | none => .err (.UnexpectedChar c pos)

/-- Top-level entry point (src/lex.rs `lex`): scan the whole input from
position `(1, 1)` with no terminator. -/
def lex (s : String) : LexOutcome (List Lexeme) :=
  match do_group (s.length + 1) s.data ⟨1, 1⟩ none with
  | .ok (ls, _, _) => .ok ls
  | .err e => .err e
  | .panic m => .panic m

/-- UTF-8 size in bytes of one character (the table behind Rust
`String::len`, which counts bytes). -/
def charSize (c : Char) : Nat :=
  if c.toNat ≤ 0x7F then 1
  else if c.toNat ≤ 0x7FF then 2
  else if c.toNat ≤ 0xFFFF then 3
  else 4

/-- Byte length of a string (Rust `String::len`). -/
def byteLen (s : String) : Nat :=
  s.data.foldl (fun n c => n + charSize c) 0

/-- The whitespace-reconstruction loop of `highlight_group`
(src/lex.rs lines 330-341 and 378-389): `while *pos != start`, emit a
newline when the cursor's row is behind, else a space when its column
is behind, else `panic!("invalid span")`.  A panic is modelled as
`none`.  This is the closed form of that loop; the lemmas
`padTo_eq_self`, `padTo_step_row`, `padTo_step_col` and `padTo_stuck`
below prove that it satisfies exactly the loop's one-step recurrence. -/
def padTo (pos target : Pos) : Option (String × Pos) :=
  if pos = target then some ("", pos)
  else if pos.row < target.row then
    if 1 ≤ target.col then
      some (String.mk (List.replicate (target.row - pos.row) '\n' ++
        List.replicate (target.col - 1) ' '), target)
    else none
  else if pos.row = target.row ∧ pos.col < target.col then
    some (String.mk (List.replicate (target.col - pos.col) ' '), target)
  else none

mutual

/-- Number of lexemes in a tree, delimiters included; used only to
supply sufficient fuel to `highlight_group`. -/
def Lexeme.size : Lexeme → Nat
  | .token _ _ => 1
  | .group _ _ body => 1 + Lexeme.sizeList body

/-- Number of lexemes in a forest; see `Lexeme.size`. -/
def Lexeme.sizeList : List Lexeme → Nat
  | [] => 0
  | l :: ls => Lexeme.size l + Lexeme.sizeList ls

end

/-- Color code for a token (the match in src/lex.rs lines 344-356). -/
def tokenColor (t : Token) : String :=
  match t.ty with
  | .Comment => "\x1B[34m"
  | .Id => if t.is_keyword then "\x1B[31m" else "\x1B[37m"
  | .Num => "\x1B[36m"
  | .Punct => "\x1B[33m"
  | .String => "\x1B[32m"

/-- The renderer over one nesting level (src/lex.rs `highlight_group`):
for each lexeme, reconstruct the whitespace gap from the cursor to the
lexeme's start, then render the lexeme; a group renders its opening
delimiter (re-derived from the kind tag), its children, the gap up to
one column before its recorded end, and its closing delimiter.
Returns the emitted text and the final cursor; `none` models
`panic!("invalid span")`.  The `fuel` argument only makes the nested
recursion obviously terminating: every recursive call is on a strict
subterm, so `sizeOf + 1` fuel, as supplied by `highlight`, always
suffices. -/
def highlight_group : Nat → Pos → List Lexeme → Option (String × Pos)
  | 0, _, _ => none
  | _ + 1, pos, [] => some ("", pos)
  | fuel + 1, pos, l :: ls =>
    match padTo pos l.span.start with
    | some (pad, p1) =>
      match l with
      | .token _ t =>
        let rendered : String × Pos :=
          if t.ty = TokenType.String then
            (tokenColor t ++ "\"" ++ t.body ++ "\"",
              ⟨p1.row, p1.col + byteLen t.body + 2⟩)
          else
            (tokenColor t ++ t.body, ⟨p1.row, p1.col + byteLen t.body⟩)
        match highlight_group fuel rendered.2 ls with
        | some (s2, p3) => some (pad ++ rendered.1 ++ s2, p3)
        | none => none
      | .group sp gt body =>
        let opener : String :=
          match gt with
          | .Brace => "\x7b"
          | .Bracket => "["
          | .Paren => "("
        let closer : String :=
          match gt with
          | .Brace => "\x7d"
          | .Bracket => "]"
          | .Paren => ")"
        match highlight_group fuel (stepCol p1) body with
        | some (inner, p2) =>
          -- Rust: `end.1 -= 1`, one column backward from the stored end.
          match padTo p2 ⟨sp.stop.row, sp.stop.col - 1⟩ with
          | some (pad2, p3) =>
            match highlight_group fuel (stepCol p3) ls with
            | some (s2, p4) =>
              some (pad ++ "\x1B[35m" ++ opener ++ inner ++ pad2 ++
                "\x1B[35m" ++ closer ++ s2, p4)
            | none => none
          | none => none
        | none => none
    | none => none

/-- Top-level renderer (src/lex.rs `highlight`): render from `(1, 1)`
and append the style reset; `none` models the `panic!` aborts. -/
def highlight (file : List Lexeme) : Option String :=
  match highlight_group (Lexeme.sizeList file + 1) ⟨1, 1⟩ file with
  | some (s, _) => some (s ++ "\x1B[0m")
  | none => none

/-- Removal of ANSI style codes: drop every maximal run starting at an
escape character `\x1B` and ending at the next `m`.  All codes emitted
by `highlight` have this shape (`ESC [ … m`). -/
def stripAnsiGo : Bool → List Char → List Char
  | _, [] => []
  | true, c :: rest =>
    if c = 'm' then stripAnsiGo false rest else stripAnsiGo true rest
  | false, c :: rest =>
    if c = '\x1B' then stripAnsiGo true rest else c :: stripAnsiGo false rest

/-- Strip ANSI style codes from a rendered string. -/
def stripAnsi (s : String) : String :=
  String.mk (stripAnsiGo false s.data)

/-!
Specification-side predicates.  These formalize the spec's data-model
invariants; they are checked against the trees the lexer actually
produces.
-/

/-- The Position Tracker of spec section 4.1: advancing one position by
one consumed character.  `'\n'` starts a new row at column 1; any other
character moves one column. -/
def nextPos (p : Pos) (c : Char) : Pos :=
  if c = '\n' then ⟨p.row + 1, 1⟩ else ⟨p.row, p.col + 1⟩

/-- Advancing a position character-by-character over a whole string. -/
def advanceStr (p : Pos) (s : String) : Pos :=
  s.data.foldl nextPos p

/-- Document order on positions, non-strict. -/
def posLe (a b : Pos) : Bool :=
  decide (a.row < b.row ∨ (a.row = b.row ∧ a.col ≤ b.col))

/-- Document order on positions, strict. -/
def posLt (a b : Pos) : Bool :=
  decide (a.row < b.row ∨ (a.row = b.row ∧ a.col < b.col))

/-- Claim C4's per-token bookkeeping equation, as amended: for every
token except strings, advancing the start position over the captured
body yields the end position; for a string token the end position is
two further columns along (the two quote characters, which the span
covers but the body omits). -/
def tokenEndOk (sp : Span) (t : Token) : Bool :=
  match t.ty with
  | .String =>
    decide (sp.stop = ⟨(advanceStr sp.start t.body).row,
      (advanceStr sp.start t.body).col + 2⟩)
  | _ => decide (sp.stop = advanceStr sp.start t.body)

mutual

/-- All tokens of a lexeme tree satisfy `tokenEndOk`. -/
def tokensOk : Lexeme → Bool
  | .token sp t => tokenEndOk sp t
  | .group _ _ body => tokensOkList body

/-- All tokens of a forest satisfy `tokenEndOk`. -/
def tokensOkList : List Lexeme → Bool
  | [] => true
  | l :: ls => tokensOk l && tokensOkList ls

end

mutual

/-- Claim C8's span discipline for one lexeme: its span is nonempty,
and for a group its children lie strictly inside the delimiters — they
are chained in document order starting one column after the group's
start and ending no later than one column before the group's end
(`spansOk`), which also forces every descendant span inside every
ancestor group span. -/
def spanOk : Lexeme → Bool
  | .token sp _ => posLt sp.start sp.stop
  | .group sp _ body =>
    posLt sp.start sp.stop && decide (2 ≤ sp.stop.col) &&
      spansOk ⟨sp.start.row, sp.start.col + 1⟩ body ⟨sp.stop.row, sp.stop.col - 1⟩

/-- Claim C8's span discipline for a sibling forest: starting from
lower bound `p`, each sibling starts no earlier than the bound, is
itself well-formed, and moves the bound to its end; the final bound is
at most `q`.  Consecutive sibling spans are therefore strictly ordered
and non-overlapping. -/
def spansOk : Pos → List Lexeme → Pos → Bool
  | p, [], q => posLe p q
  | p, l :: ls, q => posLe p l.span.start && spanOk l && spansOk l.span.stop ls q

end

mutual

/-- Every token body in a lexeme tree satisfies `P`. -/
def bodiesOk (P : String → Bool) : Lexeme → Bool
  | .token _ t => P t.body
  | .group _ _ body => bodiesOkList P body

/-- Every token body in a forest satisfies `P`. -/
def bodiesOkList (P : String → Bool) : List Lexeme → Bool
  | [] => true
  | l :: ls => bodiesOk P l && bodiesOkList P ls

end

/-- A string with no newline character. -/
def noNewline (s : String) : Bool := s.data.all (fun c => !(c = '\n' : Bool))

/-- A character in the single-byte (ASCII) UTF-8 range. -/
def asciiChar (c : Char) : Bool := decide (c.toNat ≤ 127)

/-- A string of single-byte characters. -/
def asciiStr (s : String) : Bool := s.data.all asciiChar

mutual

/-- All span positions of a lexeme tree have column at least 1 (both
rows and columns are 1-indexed). -/
def colsOk : Lexeme → Bool
  | .token sp _ => decide (1 ≤ sp.start.col) && decide (1 ≤ sp.stop.col)
  | .group sp _ body =>
    decide (1 ≤ sp.start.col) && decide (1 ≤ sp.stop.col) && colsOkList body

/-- All span positions of a forest have column at least 1. -/
def colsOkList : List Lexeme → Bool
  | [] => true
  | l :: ls => colsOk l && colsOkList ls

end

/-- The scanner invariant: a successful `do_group` run produces a tree
whose tokens satisfy the bookkeeping equation `tokenEndOk`, whose
bodies contain no raw newline (and only single-byte characters when the
input does), and whose sibling spans are chained in document order from
the entry position up to some bound `q` at which the scan stopped:
at the top level (`ec = none`) the final position equals `q`, and in a
nested scan the final position is one column past `q` (the consumed
terminator). -/
@[reducible] def DGconc (chars : List Char) (p : Pos) (ec : Option Char)
    (out : List Lexeme × Pos × List Char) : Prop :=
  tokensOkList out.1 = true ∧
  bodiesOkList noNewline out.1 = true ∧
  (chars.all asciiChar = true →
    bodiesOkList asciiStr out.1 = true ∧ out.2.2.all asciiChar = true) ∧
  colsOkList out.1 = true ∧
  ∃ q, spansOk p out.1 q = true ∧ 1 ≤ q.col ∧
    ((ec = none ∧ out.2.1 = q) ∨
     (ec ≠ none ∧ out.2.1.row = q.row ∧ out.2.1.col = q.col + 1))

/-- A fully parenthesized input of nesting depth `n`. -/
def nestParens (n : Nat) : String :=
  String.mk (List.replicate n '(' ++ List.replicate n ')')

/-!
One rewrite lemma per arm of `do_group`.  Each lemma carries the
negations of the conditions of the arms before it (for a concrete
character those conditions evaluate, so only the terminator condition
remains).  All later proofs step `do_group` through these lemmas
instead of unfolding the definition wholesale.
-/

theorem dg_zero (chars : List Char) (p : Pos) (ec : Option Char) :
    do_group 0 chars p ec = .panic "embedding fuel exhausted" := rfl

theorem dg_nil (fuel : Nat) (p : Pos) (ec : Option Char) :
    do_group (fuel + 1) [] p ec =
      if ec = none then .ok ([], p, []) else .err (.Eof p) := rfl

theorem dg_term {c : Char} {ec : Option Char} (h : some c = ec)
    (fuel : Nat) (rest : List Char) (p : Pos) :
    do_group (fuel + 1) (c :: rest) p ec = .ok ([], stepCol p, rest) := by
  simp [do_group, ← h]

theorem dg_space {ec : Option Char} (h : ¬(some ' ' = ec))
    (fuel : Nat) (rest : List Char) (p : Pos) :
    do_group (fuel + 1) (' ' :: rest) p ec =
      do_group fuel rest (stepCol p) ec := by
  simp [do_group, h]

theorem dg_newline {ec : Option Char} (h : ¬(some '\n' = ec))
    (fuel : Nat) (rest : List Char) (p : Pos) :
    do_group (fuel + 1) ('\n' :: rest) p ec =
      do_group fuel rest ⟨p.row + 1, 1⟩ ec := by
  simp [do_group, h]

theorem dg_id {c : Char} {ec : Option Char} (h1 : ¬(some c = ec))
    (h2 : c ≠ ' ') (h3 : c ≠ '\n') (h4 : (isXidStart c || c = '_') = true)
    (fuel : Nat) (rest : List Char) (p : Pos) :
    do_group (fuel + 1) (c :: rest) p ec =
      consLex (.token ⟨p, ⟨p.row, p.col + 1 + (rest.takeWhile isXidContinue).length⟩⟩
          ⟨.Id, String.mk (c :: rest.takeWhile isXidContinue)⟩)
        (do_group fuel (rest.dropWhile isXidContinue)
          ⟨p.row, p.col + 1 + (rest.takeWhile isXidContinue).length⟩ ec) := by
  simp [do_group, h1, h2, h3, h4]

theorem dg_num {c : Char} {ec : Option Char} (h1 : ¬(some c = ec))
    (h2 : c ≠ ' ') (h3 : c ≠ '\n') (h4 : (isXidStart c || c = '_') = false)
    (h5 : isNumeric c = true)
    (fuel : Nat) (rest : List Char) (p : Pos) :
    do_group (fuel + 1) (c :: rest) p ec =
      consLex (.token ⟨p, ⟨p.row, p.col + 1 + (rest.takeWhile isXidContinue).length⟩⟩
          ⟨.Num, String.mk (c :: rest.takeWhile isXidContinue)⟩)
        (do_group fuel (rest.dropWhile isXidContinue)
          ⟨p.row, p.col + 1 + (rest.takeWhile isXidContinue).length⟩ ec) := by
  simp [do_group, h1, h2, h3, h4, h5]

theorem dg_punct1 {c : Char} {ec : Option Char} (h1 : ¬(some c = ec))
    (hc : c = '#' ∨ c = ';' ∨ c = '=')
    (fuel : Nat) (rest : List Char) (p : Pos) :
    do_group (fuel + 1) (c :: rest) p ec =
      consLex (.token ⟨p, stepCol p⟩ ⟨.Punct, String.mk [c]⟩)
        (do_group fuel rest (stepCol p) ec) := by
  rcases hc with rfl | rfl | rfl <;> simp [do_group, h1, isXidStart, isNumeric]

theorem dg_colon2 {ec : Option Char} (h1 : ¬(some ':' = ec))
    (fuel : Nat) (rest : List Char) (p : Pos) :
    do_group (fuel + 1) (':' :: ':' :: rest) p ec =
      consLex (.token ⟨p, ⟨p.row, p.col + 2⟩⟩ ⟨.Punct, "::"⟩)
        (do_group fuel rest ⟨p.row, p.col + 2⟩ ec) := by
  simp [do_group, h1, isXidStart, isNumeric]

theorem dg_colon1 {ec : Option Char} (h1 : ¬(some ':' = ec))
    {rest : List Char} (h2 : rest.head? ≠ some ':')
    (fuel : Nat) (p : Pos) :
    do_group (fuel + 1) (':' :: rest) p ec =
      consLex (.token ⟨p, stepCol p⟩ ⟨.Punct, ":"⟩)
        (do_group fuel rest (stepCol p) ec) := by
  match rest with
  | [] => simp [do_group, h1, isXidStart, isNumeric]
  | d :: rest2 =>
    have hd : d ≠ ':' := by simpa using h2
    simp [do_group, h1, isXidStart, isNumeric, hd]

theorem dg_star_eq {ec : Option Char} (h1 : ¬(some '*' = ec))
    (fuel : Nat) (rest : List Char) (p : Pos) :
    do_group (fuel + 1) ('*' :: '=' :: rest) p ec =
      consLex (.token ⟨p, ⟨p.row, p.col + 2⟩⟩ ⟨.Punct, "-="⟩)
        (do_group fuel rest ⟨p.row, p.col + 2⟩ ec) := by
  simp [do_group, h1, isXidStart, isNumeric]

theorem dg_star {ec : Option Char} (h1 : ¬(some '*' = ec))
    {rest : List Char} (h2 : rest.head? ≠ some '=')
    (fuel : Nat) (p : Pos) :
    do_group (fuel + 1) ('*' :: rest) p ec =
      consLex (.token ⟨p, stepCol p⟩ ⟨.Punct, "-"⟩)
        (do_group fuel rest (stepCol p) ec) := by
  match rest with
  | [] => simp [do_group, h1, isXidStart, isNumeric]
  | d :: rest2 =>
    have hd : d ≠ '=' := by simpa using h2
    simp [do_group, h1, isXidStart, isNumeric, hd]

theorem dg_dash_merge {ec : Option Char} (h1 : ¬(some '-' = ec))
    {d : Char} (hd : d = '>' ∨ d = '-' ∨ d = '=')
    (fuel : Nat) (rest : List Char) (p : Pos) :
    do_group (fuel + 1) ('-' :: d :: rest) p ec =
      consLex (.token ⟨p, ⟨p.row, p.col + 2⟩⟩ ⟨.Punct, String.mk ['-', d]⟩)
        (do_group fuel rest ⟨p.row, p.col + 2⟩ ec) := by
  rcases hd with rfl | rfl | rfl <;> simp [do_group, h1, isXidStart, isNumeric]

theorem dg_dash {ec : Option Char} (h1 : ¬(some '-' = ec))
    {rest : List Char}
    (h2 : rest.head? ≠ some '>') (h3 : rest.head? ≠ some '-')
    (h4 : rest.head? ≠ some '=')
    (fuel : Nat) (p : Pos) :
    do_group (fuel + 1) ('-' :: rest) p ec =
      consLex (.token ⟨p, stepCol p⟩ ⟨.Punct, "-"⟩)
        (do_group fuel rest (stepCol p) ec) := by
  match rest with
  | [] => simp [do_group, h1, isXidStart, isNumeric]
  | d :: rest2 =>
    have hgt : d ≠ '>' := by simpa using h2
    have hdd : d ≠ '-' := by simpa using h3
    have heq : d ≠ '=' := by simpa using h4
    simp [do_group, h1, isXidStart, isNumeric, hgt, hdd, heq]

theorem dg_comment {ec : Option Char} (h1 : ¬(some '/' = ec))
    (fuel : Nat) (rest : List Char) (p : Pos) :
    do_group (fuel + 1) ('/' :: '/' :: rest) p ec =
      consLex (.token ⟨p, ⟨p.row, p.col + 2 +
            (rest.takeWhile (fun ch => !(ch = '\n' : Bool))).length⟩⟩
          ⟨.Comment, String.mk ('/' :: '/' ::
            rest.takeWhile (fun ch => !(ch = '\n' : Bool)))⟩)
        (do_group fuel (rest.dropWhile (fun ch => !(ch = '\n' : Bool)))
          ⟨p.row, p.col + 2 +
            (rest.takeWhile (fun ch => !(ch = '\n' : Bool))).length⟩ ec) := by
  simp [do_group, h1, isXidStart, isNumeric]

theorem dg_block_comment {ec : Option Char} (h1 : ¬(some '/' = ec))
    (fuel : Nat) (rest : List Char) (p : Pos) :
    do_group (fuel + 1) ('/' :: '*' :: rest) p ec =
      .panic "not yet implemented: Multiline?" := by
  simp [do_group, h1, isXidStart, isNumeric]

theorem dg_slash {ec : Option Char} (h1 : ¬(some '/' = ec))
    {rest : List Char} (h2 : rest.head? ≠ some '/') (h3 : rest.head? ≠ some '*')
    (fuel : Nat) (p : Pos) :
    do_group (fuel + 1) ('/' :: rest) p ec =
      consLex (.token ⟨p, stepCol p⟩ ⟨.Punct, "/"⟩)
        (do_group fuel rest (stepCol p) ec) := by
  match rest with
  | [] => simp [do_group, h1, isXidStart, isNumeric]
  | d :: rest2 =>
    have hds : d ≠ '/' := by simpa using h2
    have hdb : d ≠ '*' := by simpa using h3
    simp [do_group, h1, isXidStart, isNumeric, hds, hdb]

theorem dg_quote {ec : Option Char} (h1 : ¬(some '"' = ec))
    (fuel : Nat) (rest : List Char) (p : Pos) :
    do_group (fuel + 1) ('"' :: rest) p ec =
      match scanString rest (stepCol p) with
      | .ok (text, qpos, rest2) =>
        consLex (.token ⟨p, stepCol qpos⟩ ⟨.String, text⟩)
          (do_group fuel rest2 (stepCol qpos) ec)
      | .err e => .err e
      | .panic m => .panic m := by
  simp [do_group, h1, isXidStart, isNumeric]

theorem dg_open {c : Char} {ec : Option Char} {gt : GroupType}
    (h1 : ¬(some c = ec)) (hg : GroupType.from_start_char c = some gt)
    (fuel : Nat) (rest : List Char) (p : Pos) :
    do_group (fuel + 1) (c :: rest) p ec =
      match do_group fuel rest (stepCol p) (some gt.end_char) with
      | .ok (inner, inner_end, rest2) =>
        consLex (.group ⟨p, inner_end⟩ gt inner)
          (do_group fuel rest2 inner_end ec)
      | .err e => .err e
      | .panic m => .panic m := by
  have hc : c = '(' ∨ c = '[' ∨ c = '\x7b' := by
    by_contra hn
    push_neg at hn
    simp [GroupType.from_start_char, hn.1, hn.2.1, hn.2.2] at hg
  rcases hc with rfl | rfl | rfl <;>
    simp_all [do_group, h1, isXidStart, isNumeric, GroupType.from_start_char]

theorem dg_unexpected {c : Char} {ec : Option Char} (h1 : ¬(some c = ec))
    (h2 : c ≠ ' ') (h3 : c ≠ '\n') (h4 : (isXidStart c || c = '_') = false)
    (h5 : isNumeric c = false) (h6 : ¬(c = '#' ∨ c = ';' ∨ c = '='))
    (h7 : c ≠ ':') (h8 : c ≠ '*') (h9 : c ≠ '-') (h10 : c ≠ '/')
    (h11 : c ≠ '"') (h12 : GroupType.from_start_char c = none)
    (fuel : Nat) (rest : List Char) (p : Pos) :
    do_group (fuel + 1) (c :: rest) p ec = .err (.UnexpectedChar c p) := by
  push_neg at h6
  simp [do_group, h1, h2, h3, h4, h5, h6.1, h6.2.1, h6.2.2, h7, h8, h9, h10,
    h11, h12]

/-!
Claim theorems on concrete inputs.
-/

/-- C6: maximal munch for multi-character punctuation.  `::` lexes as
one `Punct` token with body `::` (never two `:` tokens), and `->`,
`--`, `-=`, `*=` each lex as a single token.  (For `*=` the single
token's body is `-=`: the star arm of the source builds its body from
`String::from("-")`.) -/
theorem maximal_munch_punct :
    lex "::" = .ok [.token ⟨⟨1, 1⟩, ⟨1, 3⟩⟩ ⟨.Punct, "::"⟩] ∧
    lex "->" = .ok [.token ⟨⟨1, 1⟩, ⟨1, 3⟩⟩ ⟨.Punct, "->"⟩] ∧
    lex "--" = .ok [.token ⟨⟨1, 1⟩, ⟨1, 3⟩⟩ ⟨.Punct, "--"⟩] ∧
    lex "-=" = .ok [.token ⟨⟨1, 1⟩, ⟨1, 3⟩⟩ ⟨.Punct, "-="⟩] ∧
    lex "*=" = .ok [.token ⟨⟨1, 1⟩, ⟨1, 3⟩⟩ ⟨.Punct, "-="⟩] :=
  ⟨rfl, rfl, rfl, rfl, rfl⟩

/-- C7: an unterminated group fails with `Eof` at the position after
the opening delimiter; an unterminated string fails with `Eof`; a raw
newline inside a string literal fails with `UnexpectedChar` carrying
the newline character and its position. -/
theorem unterminated_inputs_fail :
    lex "(" = .err (.Eof ⟨1, 2⟩) ∧
    lex "\"abc" = .err (.Eof ⟨1, 5⟩) ∧
    lex "\"ab\nc\"" = .err (.UnexpectedChar '\n' ⟨1, 4⟩) :=
  ⟨rfl, rfl, rfl⟩

/-- C2, failing-input theorem: on a block-comment opener `/*`, and on a
backslash inside a string literal, the code reaches `todo!()` and
aborts (modelled as the `panic` outcome) instead of returning an
`UnsupportedConstruct` error value — indeed no such variant exists in
the `Error` enum, which has only `Eof`, `ReadError` and
`UnexpectedChar`. -/
theorem unsupported_constructs_panic :
    lex "/*" = .panic "not yet implemented: Multiline?" ∧
    lex "\"\\" = .panic "not yet implemented" :=
  ⟨rfl, rfl⟩

/-- C5, counterexample: the bodies produced by the star arm are not
distinct from the bodies produced by the dash arm.  Lexing `*` yields
one `Punct` token with body `-` — the very same tree that lexing `-`
yields — because the star arm of the source builds its body from
`String::from("-")`. -/
theorem star_body_not_distinct :
    lex "*" = .ok [.token ⟨⟨1, 1⟩, ⟨1, 2⟩⟩ ⟨.Punct, "-"⟩] ∧
    lex "*" = lex "-" :=
  ⟨rfl, rfl⟩

/-- C4, counterexample: for a `String` token, advancing the start
position over the captured body does not reach the recorded end
position.  On input `"ab"` (quotes included) the lexer records the span
`(1,1)-(1,5)` — the end lies past the closing quote — while advancing
`(1,1)` over the two-character body `ab` only reaches `(1,3)`. -/
theorem string_token_span_cx :
    lex "\"ab\"" = .ok [.token ⟨⟨1, 1⟩, ⟨1, 5⟩⟩ ⟨.String, "ab"⟩] ∧
    advanceStr ⟨1, 1⟩ "ab" = ⟨1, 3⟩ ∧ (⟨1, 3⟩ : Pos) ≠ ⟨1, 5⟩ :=
  ⟨rfl, rfl, by decide⟩

/-- C1, failing-input theorem: the highlight/strip/re-lex round trip is
not structurally the identity.  Lexing `*-` yields two one-character
`Punct` tokens (each with body `-`, since the star arm of the source
builds its body from `String::from("-")`); highlighting that tree and
stripping the style codes prints `--`, which re-lexes as a single
two-character `Punct` token — a tree of different length. -/
theorem relex_highlight_not_id :
    lex "*-" = .ok [.token ⟨⟨1, 1⟩, ⟨1, 2⟩⟩ ⟨.Punct, "-"⟩,
      .token ⟨⟨1, 2⟩, ⟨1, 3⟩⟩ ⟨.Punct, "-"⟩] ∧
    (highlight [.token ⟨⟨1, 1⟩, ⟨1, 2⟩⟩ ⟨.Punct, "-"⟩,
      .token ⟨⟨1, 2⟩, ⟨1, 3⟩⟩ ⟨.Punct, "-"⟩]).map stripAnsi = some "--" ∧
    lex "--" = .ok [.token ⟨⟨1, 1⟩, ⟨1, 3⟩⟩ ⟨.Punct, "--"⟩] ∧
    [Lexeme.token ⟨⟨1, 1⟩, ⟨1, 3⟩⟩ ⟨.Punct, "--"⟩].length ≠
      [Lexeme.token ⟨⟨1, 1⟩, ⟨1, 2⟩⟩ ⟨.Punct, "-"⟩,
        Lexeme.token ⟨⟨1, 2⟩, ⟨1, 3⟩⟩ ⟨.Punct, "-"⟩].length :=
  ⟨rfl, rfl, rfl, by decide⟩


/-- Scanning `m` opening parentheses, a closing one, and `m` more
closing ones consumes them all and succeeds, for any fuel at least
`2*m + 1` — the workhorse behind `no_nesting_depth_limit`. -/
theorem do_group_nest : ∀ m fuel p tail, 2*m + 1 ≤ fuel →
    ∃ ls q, do_group fuel
      (List.replicate m '(' ++ ')' :: List.replicate m ')' ++ tail) p
      (some ')') = .ok (ls, q, tail) := by
  intro m
  induction m with
  | zero =>
    intro fuel p tail h
    match fuel, h with
    | f + 1, _ => exact ⟨[], stepCol p, by simpa using dg_term rfl f tail p⟩
  | succ m ih =>
    intro fuel p tail h
    match fuel, (by omega : 2 ≤ fuel) with
    | f + 2, _ =>
      have hf : 2*m + 1 ≤ f + 1 := by omega
      obtain ⟨ls, q, hrec⟩ := ih (f + 1) (stepCol p) (')' :: tail) hf
      refine ⟨[.group ⟨p, q⟩ .Paren ls], stepCol q, ?_⟩
      have hshape : List.replicate (m+1) '(' ++ ')' :: List.replicate (m+1) ')' ++ tail
          = '(' :: (List.replicate m '(' ++ ')' :: List.replicate m ')' ++ (')' :: tail)) := by
        rw [List.replicate_succ, List.replicate_succ']
        simp [List.append_assoc]
      rw [hshape, dg_open (by decide) (show GroupType.from_start_char '(' = some .Paren by decide)]
      simp only [GroupType.end_char]
      rw [hrec]
      simp only [consLex]
      rw [dg_term rfl]

/-- C3, refuting theorem: `lex` imposes no maximum nesting depth — it
succeeds on a fully parenthesized input of every depth `n`, so there is
no bound past which it fails, and the `Error` enum contains no
depth-limit kind it could fail with. -/
theorem no_nesting_depth_limit (n : Nat) : ∃ ls, lex (nestParens n) = .ok ls := by
  cases n with
  | zero => exact ⟨[], rfl⟩
  | succ m =>
    have hdata : (nestParens (m+1)).data
        = '(' :: (List.replicate m '(' ++ ')' :: List.replicate m ')' ++ ([] : List Char)) := by
      simp [nestParens, List.replicate_succ]
    have hlen : (nestParens (m+1)).length = 2*m + 2 := by
      simp [nestParens, String.length, List.replicate_succ]
      omega
    obtain ⟨ls, q, hrec⟩ := do_group_nest m (2*m + 2) (stepCol ⟨1, 1⟩) [] (by omega)
    refine ⟨[.group ⟨⟨1, 1⟩, q⟩ .Paren ls], ?_⟩
    unfold lex
    rw [hlen, hdata, dg_open (by decide) (show GroupType.from_start_char '(' = some .Paren by decide)]
    simp only [GroupType.end_char]
    rw [hrec]
    simp only [consLex]
    rw [show 2*m+2 = 2*m+1+1 from rfl, dg_nil]
    simp [consLex]

/-- Witness for `no_nesting_depth_limit` at depth 8. -/
theorem no_nesting_depth_limit_witness : ∃ ls, lex (nestParens 8) = .ok ls :=
  no_nesting_depth_limit 8

/-- C10: a closing delimiter `)`, `]` or `}` that is not the terminator
the scanner currently expects — in particular any closing delimiter at
the top level, where the expected terminator is `none` — makes the scan
fail immediately with `UnexpectedChar` carrying that character and its
position.  (No arm of `do_group` matches such a character, so it falls
through to the catch-all error arm.) -/
theorem mismatched_closer_rejected (fuel : Nat) (c : Char) (rest : List Char)
    (p : Pos) (ec : Option Char) (hc : c = ')' ∨ c = ']' ∨ c = '\x7d')
    (hne : ec ≠ some c) :
    do_group (fuel + 1) (c :: rest) p ec = .err (.UnexpectedChar c p) := by
  have h1 : ¬(some c = ec) := fun h => hne h.symm
  rcases hc with rfl | rfl | rfl <;>
    simp [do_group, h1, isXidStart, isNumeric, GroupType.from_start_char]

/-- Witness for `mismatched_closer_rejected`: a top-level `)` is
rejected at its own position. -/
theorem mismatched_closer_rejected_witness :
    do_group 2 [')'] ⟨1, 1⟩ none = .err (.UnexpectedChar ')' ⟨1, 1⟩) :=
  mismatched_closer_rejected 1 ')' [] ⟨1, 1⟩ none (Or.inl rfl) (by decide)

/-- C5, as amended: a `*` (when it is not the expected terminator) is
always consumed and emits exactly one `Punct` token; a following `=` is
merged into the same token.  The two resulting bodies, however, are `-`
and `-=` — the star arm of the source builds its body from
`String::from("-")` — which coincide with bodies the dash arm also
produces, rather than being distinct from them. -/
theorem star_arm_behavior (fuel : Nat) (rest : List Char) (p : Pos)
    (ec : Option Char) (hne : ec ≠ some '*') :
    (∀ rest2, rest = '=' :: rest2 →
      do_group (fuel + 1) ('*' :: rest) p ec =
        consLex (.token ⟨p, ⟨p.row, p.col + 2⟩⟩ ⟨.Punct, "-="⟩)
          (do_group fuel rest2 ⟨p.row, p.col + 2⟩ ec)) ∧
    (rest.head? ≠ some '=' →
      do_group (fuel + 1) ('*' :: rest) p ec =
        consLex (.token ⟨p, stepCol p⟩ ⟨.Punct, "-"⟩)
          (do_group fuel rest (stepCol p) ec)) := by
  have h1 : ¬(some '*' = ec) := fun h => hne h.symm
  constructor
  · rintro rest2 rfl
    simp [do_group, h1, isXidStart, isNumeric]
  · intro hh
    match rest with
    | [] => simp [do_group, h1, isXidStart, isNumeric]
    | d :: rest2 =>
      have hd : d ≠ '=' := by simpa using hh
      simp [do_group, h1, isXidStart, isNumeric, hd]

/-- Witness for `star_arm_behavior`: scanning `*=` merges the `=` into
one token with body `-=`. -/
theorem star_arm_behavior_witness :
    do_group 2 ['*', '='] ⟨1, 1⟩ none =
      consLex (.token ⟨⟨1, 1⟩, ⟨1, 3⟩⟩ ⟨.Punct, "-="⟩)
        (do_group 1 [] ⟨1, 3⟩ none) :=
  (star_arm_behavior 1 ['='] ⟨1, 1⟩ none (by decide)).1 [] rfl

/-!
Helper lemmas for the scanner invariant.
-/

theorem posLe_refl (p : Pos) : posLe p p = true := by
  simp [posLe]

theorem posLe_trans {a b c : Pos} (h1 : posLe a b = true)
    (h2 : posLe b c = true) : posLe a c = true := by
  simp [posLe] at *
  omega

theorem posLe_of_lt {a b : Pos} (h : posLt a b = true) : posLe a b = true := by
  simp [posLt, posLe] at *
  omega

theorem spansOk_weaken {p1 p2 q : Pos} {ls : List Lexeme}
    (hle : posLe p1 p2 = true) (h : spansOk p2 ls q = true) :
    spansOk p1 ls q = true := by
  cases ls with
  | nil =>
    simp [spansOk] at *
    exact posLe_trans hle h
  | cons l ls =>
    simp [spansOk] at *
    exact ⟨⟨posLe_trans hle h.1.1, h.1.2⟩, h.2⟩

theorem spanOk_lt {l : Lexeme} (h : spanOk l = true) :
    posLt l.span.start l.span.stop = true := by
  cases l with
  | token sp t => simpa [spanOk, Lexeme.span] using h
  | group sp gt body =>
    simp [spanOk, Lexeme.span] at *
    exact h.1.1

theorem spansOk_le : ∀ {ls : List Lexeme} {p q : Pos},
    spansOk p ls q = true → posLe p q = true := by
  intro ls
  induction ls with
  | nil => intro p q h; simpa [spansOk] using h
  | cons l ls ih =>
    intro p q h
    simp [spansOk] at h
    exact posLe_trans h.1.1
      (posLe_trans (posLe_of_lt (spanOk_lt h.1.2)) (ih h.2))

theorem all_takeWhile_of_all {l : List Char} {P Q : Char → Bool}
    (h : l.all P = true) : (l.takeWhile Q).all P = true := by
  rw [List.all_eq_true] at *
  exact fun a ha => h a ((List.takeWhile_sublist _).subset ha)

theorem all_dropWhile_of_all {l : List Char} {P Q : Char → Bool}
    (h : l.all P = true) : (l.dropWhile Q).all P = true := by
  rw [List.all_eq_true] at *
  exact fun a ha => h a ((List.dropWhile_sublist _).subset ha)

theorem all_takeWhile_pred {l : List Char} {P Q : Char → Bool}
    (h : ∀ c, Q c = true → P c = true) : (l.takeWhile Q).all P = true := by
  rw [List.all_eq_true]
  exact fun a ha => h a (List.mem_takeWhile_imp ha)

theorem foldl_nextPos_no_newline :
    ∀ (l : List Char) (p : Pos), l.all (fun c => !(c = '\n' : Bool)) = true →
      List.foldl nextPos p l = ⟨p.row, p.col + l.length⟩ := by
  intro l
  induction l with
  | nil => intro p _; rfl
  | cons c l ih =>
    intro p h
    simp at h
    rw [List.foldl_cons, nextPos, if_neg h.1, ih _ (by simpa using h.2)]
    simp
    omega

theorem advanceStr_no_newline {s : String} (h : noNewline s = true) (p : Pos) :
    advanceStr p s = ⟨p.row, p.col + s.length⟩ :=
  foldl_nextPos_no_newline s.data p h

theorem charSize_ascii {c : Char} (h : asciiChar c = true) : charSize c = 1 := by
  simp [asciiChar] at h
  simp [charSize]
  omega

theorem foldl_charSize {l : List Char} :
    ∀ n, l.all asciiChar = true →
      List.foldl (fun n c => n + charSize c) n l = n + l.length := by
  induction l with
  | nil => intro n _; rfl
  | cons c l ih =>
    intro n h
    simp only [List.all_cons, Bool.and_eq_true] at h
    rw [List.foldl_cons, charSize_ascii h.1, ih _ h.2]
    simp
    omega

theorem byteLen_ascii {s : String} (h : asciiStr s = true) :
    byteLen s = s.length :=
  by simpa using foldl_charSize (l := s.data) 0 h

theorem scanString_ok : ∀ (chars : List Char) (p : Pos) text q rest,
    scanString chars p = .ok (text, q, rest) →
    q = ⟨p.row, p.col + text.length⟩ ∧ noNewline text = true ∧
      (chars.all asciiChar = true →
        asciiStr text = true ∧ rest.all asciiChar = true) := by
  intro chars
  induction chars with
  | nil => intro p text q rest h; simp [scanString] at h
  | cons c cs ih =>
    intro p text q rest h
    by_cases hnl : c = '\n'
    · simp [scanString, hnl] at h
    · by_cases hbs : c = '\\'
      · simp [scanString, hnl, hbs] at h
      · by_cases hq : c = '"'
        · simp [scanString, hnl, hbs, hq] at h
          obtain ⟨rfl, rfl, rfl⟩ := h
          refine ⟨by simp, rfl, fun ha => ⟨rfl, ?_⟩⟩
          simp at ha
          simpa using ha.2
        · simp only [scanString, if_neg hnl, if_neg hbs, if_neg hq] at h
          cases hs : scanString cs (stepCol p) with
          | ok val =>
            obtain ⟨text2, q2, rest2⟩ := val
            rw [hs] at h
            simp at h
            obtain ⟨rfl, rfl, rfl⟩ := h
            obtain ⟨hq2, hnl2, ha2⟩ := ih (stepCol p) text2 q2 rest2 hs
            refine ⟨?_, ?_, ?_⟩
            · rw [hq2]
              have hlen : (String.mk (c :: text2.data)).length = text2.length + 1 := by
                simp
              rw [hlen]
              simp [stepCol]
              omega
            · simp [noNewline] at *
              exact ⟨hnl, hnl2⟩
            · intro ha
              simp only [List.all_cons, Bool.and_eq_true] at ha
              obtain ⟨hac, hacs⟩ := ha
              obtain ⟨ht, hr⟩ := ha2 hacs
              refine ⟨?_, hr⟩
              simp [asciiStr] at *
              exact ⟨hac, ht⟩
          | err e => rw [hs] at h; simp at h
          | panic m => rw [hs] at h; simp at h

theorem consLex_ok {l : Lexeme} {o : LexOutcome (List Lexeme × Pos × List Char)}
    {ls : List Lexeme} {p : Pos} {r : List Char}
    (h : consLex l o = .ok (ls, p, r)) :
    ∃ ls2, ls = l :: ls2 ∧ o = .ok (ls2, p, r) := by
  cases o with
  | ok val =>
    obtain ⟨ls2, p2, r2⟩ := val
    simp [consLex] at h
    obtain ⟨rfl, rfl, rfl⟩ := h
    exact ⟨ls2, rfl, rfl⟩
  | err e => simp [consLex] at h
  | panic m => simp [consLex] at h


theorem xidContinue_ne_newline : ∀ ch, isXidContinue ch = true → (!(ch = '\n' : Bool)) = true := by
  intro ch hch
  simp only [Bool.not_eq_true']
  rw [decide_eq_false_iff_not]
  rintro rfl
  simp [isXidContinue] at hch

theorem noNewline_mk {c : Char} {l : List Char} (hc : ¬(c = '\n'))
    (hl : l.all (fun ch => !(ch = '\n' : Bool)) = true) :
    noNewline (String.mk (c :: l)) = true := by
  simp [noNewline] at *
  exact ⟨hc, hl⟩

theorem tokenEndOk_of_len {p q : Pos} {t : Token} (hty : t.ty ≠ TokenType.String)
    (hnl : noNewline t.body = true) (hq : q = ⟨p.row, p.col + t.body.length⟩) :
    tokenEndOk ⟨p, q⟩ t = true := by
  have hadv := advanceStr_no_newline hnl p
  obtain ⟨ty, body⟩ := t
  cases ty <;> simp_all [tokenEndOk]

theorem tokenEndOk_string {p q : Pos} {body : String}
    (hnl : noNewline body = true) (hq : q = ⟨p.row, p.col + body.length + 2⟩) :
    tokenEndOk ⟨p, q⟩ ⟨.String, body⟩ = true := by
  have hadv := advanceStr_no_newline hnl p
  simp_all [tokenEndOk]



theorem token_step {fuel : Nat}
    (IH : ∀ chars p ec out, do_group fuel chars p ec = .ok out → 1 ≤ p.col →
      DGconc chars p ec out)
    {chars rest2 : List Char} {p fin : Pos} {ec : Option Char} {t : Token}
    {out : List Lexeme × Pos × List Char}
    (hrec : consLex (.token ⟨p, fin⟩ t) (do_group fuel rest2 fin ec) = .ok out)
    (hend : tokenEndOk ⟨p, fin⟩ t = true)
    (hnl : noNewline t.body = true)
    (hlt : posLt p fin = true)
    (hcol : 1 ≤ fin.col)
    (hpcol : 1 ≤ p.col)
    (hascii : chars.all asciiChar = true →
      asciiStr t.body = true ∧ rest2.all asciiChar = true) :
    DGconc chars p ec out := by
  obtain ⟨ls, p', r⟩ := out
  obtain ⟨ls2, rfl, hinner⟩ := consLex_ok hrec
  obtain ⟨htok, hnl2, hasc2, hcols2, q, hq, hqc, hshape⟩ :=
    IH rest2 fin ec (ls2, p', r) hinner hcol
  refine ⟨?_, ?_, ?_, ?_, q, ?_, hqc, hshape⟩
  · simp [tokensOkList, tokensOk, hend, htok]
  · simp [bodiesOkList, bodiesOk, hnl, hnl2]
  · intro ha
    obtain ⟨hb, hr2⟩ := hascii ha
    obtain ⟨hls2, hr⟩ := hasc2 hr2
    exact ⟨by simp [bodiesOkList, bodiesOk, hb, hls2], hr⟩
  · simp [colsOkList, colsOk, hpcol, hcol, hcols2]
  · simp [spansOk, posLe_refl, spanOk, hlt, Lexeme.span, hq]


theorem posLe_stepCol (p : Pos) : posLe p (stepCol p) = true := by
  simp [posLe, stepCol]

theorem do_group_sound : ∀ fuel chars p ec out,
    do_group fuel chars p ec = .ok out → 1 ≤ p.col → DGconc chars p ec out := by
  intro fuel
  induction fuel with
  | zero =>
    intro chars p ec out h
    rw [dg_zero] at h
    simp at h
  | succ fuel IH =>
    intro chars p ec out h hp
    obtain ⟨ls, p', rest⟩ := out
    match chars with
    | [] =>
      rw [dg_nil] at h
      by_cases hec : ec = none
      · rw [if_pos hec] at h
        simp only [LexOutcome.ok.injEq, Prod.mk.injEq] at h
        obtain ⟨rfl, rfl, rfl⟩ := h
        exact ⟨rfl, rfl, fun _ => ⟨rfl, by simp⟩, rfl,
          p, posLe_refl p, hp, Or.inl ⟨hec, rfl⟩⟩
      · rw [if_neg hec] at h
        simp at h
    | c :: rest0 =>
      by_cases hterm : some c = ec
      · rw [dg_term hterm] at h
        simp only [LexOutcome.ok.injEq, Prod.mk.injEq] at h
        obtain ⟨rfl, rfl, rfl⟩ := h
        refine ⟨rfl, rfl, fun ha => ⟨rfl, ?_⟩, rfl, p, posLe_refl p, hp,
          Or.inr ⟨?_, rfl, rfl⟩⟩
        · simp at ha
          simpa using ha.2
        · intro hn
          rw [hn] at hterm
          simp at hterm
      · by_cases hsp : c = ' '
        · subst hsp
          rw [dg_space hterm] at h
          obtain ⟨htok, hnl2, hasc, hcols, q, hq, hqc, hshape⟩ :=
            IH rest0 (stepCol p) ec (ls, p', rest) h (Nat.succ_le_succ (Nat.zero_le _))
          refine ⟨htok, hnl2, fun ha => hasc ?_, hcols, q,
            spansOk_weaken (posLe_stepCol p) hq, hqc, hshape⟩
          simp at ha
          simpa using ha.2
        · by_cases hnl : c = '\n'
          · subst hnl
            rw [dg_newline hterm] at h
            obtain ⟨htok, hnl2, hasc, hcols, q, hq, hqc, hshape⟩ :=
              IH rest0 ⟨p.row + 1, 1⟩ ec (ls, p', rest) h (le_refl 1)
            refine ⟨htok, hnl2, fun ha => hasc ?_, hcols, q,
              spansOk_weaken (by simp [posLe]) hq, hqc, hshape⟩
            simp at ha
            simpa using ha.2
          · by_cases hid : (isXidStart c || c = '_') = true
            · rw [dg_id hterm hsp hnl hid] at h
              have hbnl : noNewline (String.mk (c :: rest0.takeWhile isXidContinue)) = true :=
                noNewline_mk hnl (all_takeWhile_pred xidContinue_ne_newline)
              refine token_step IH h ?_ hbnl ?_ ?_ hp ?_
              · refine tokenEndOk_of_len (by simp) hbnl ?_
                simp
                omega
              · simp [posLt]
                omega
              · show 1 ≤ p.col + 1 + _
                omega
              · intro ha
                simp only [List.all_cons, Bool.and_eq_true] at ha
                exact ⟨by simpa [asciiStr] using
                    And.intro ha.1 (all_takeWhile_of_all (Q := isXidContinue) ha.2),
                  all_dropWhile_of_all ha.2⟩
            · by_cases hnum : isNumeric c = true
              · rw [dg_num hterm hsp hnl (by simpa using hid) hnum] at h
                have hbnl : noNewline (String.mk (c :: rest0.takeWhile isXidContinue)) = true :=
                  noNewline_mk hnl (all_takeWhile_pred xidContinue_ne_newline)
                refine token_step IH h ?_ hbnl ?_ ?_ hp ?_
                · refine tokenEndOk_of_len (by simp) hbnl ?_
                  simp
                  omega
                · simp [posLt]
                  omega
                · show 1 ≤ p.col + 1 + _
                  omega
                · intro ha
                  simp only [List.all_cons, Bool.and_eq_true] at ha
                  exact ⟨by simpa [asciiStr] using
                      And.intro ha.1 (all_takeWhile_of_all (Q := isXidContinue) ha.2),
                    all_dropWhile_of_all ha.2⟩
              · by_cases hpu : c = '#' ∨ c = ';' ∨ c = '='
                · rw [dg_punct1 hterm hpu] at h
                  have hbnl : noNewline (String.mk [c]) = true :=
                    noNewline_mk hnl rfl
                  refine token_step IH h ?_ hbnl ?_ ?_ hp ?_
                  · exact tokenEndOk_of_len (by simp) hbnl rfl
                  · simp [posLt, stepCol]
                  · exact Nat.succ_le_succ (Nat.zero_le _)
                  · intro ha
                    simp only [List.all_cons, Bool.and_eq_true] at ha
                    exact ⟨by simpa [asciiStr] using ha.1, ha.2⟩
                · by_cases hco : c = ':'
                  · subst hco
                    by_cases hh : rest0.head? = some ':'
                    · obtain ⟨d, r2, rfl⟩ : ∃ d r2, rest0 = d :: r2 := by
                        cases rest0 with
                        | nil => simp at hh
                        | cons d r2 => exact ⟨d, r2, rfl⟩
                      obtain rfl : d = ':' := by simpa using hh
                      rw [dg_colon2 hterm] at h
                      refine token_step IH h ?_ (by decide) ?_ ?_ hp ?_
                      · exact tokenEndOk_of_len (by simp) (by decide) rfl
                      · simp [posLt]
                      · show 1 ≤ p.col + 2
                        omega
                      · intro ha
                        simp only [List.all_cons, Bool.and_eq_true] at ha
                        exact ⟨by decide, ha.2.2⟩
                    · rw [dg_colon1 hterm hh] at h
                      refine token_step IH h ?_ (by decide) ?_ ?_ hp ?_
                      · exact tokenEndOk_of_len (by simp) (by decide) rfl
                      · simp [posLt, stepCol]
                      · exact Nat.succ_le_succ (Nat.zero_le _)
                      · intro ha
                        simp only [List.all_cons, Bool.and_eq_true] at ha
                        exact ⟨by decide, ha.2⟩
                  · by_cases hst : c = '*'
                    · subst hst
                      by_cases hh : rest0.head? = some '='
                      · obtain ⟨d, r2, rfl⟩ : ∃ d r2, rest0 = d :: r2 := by
                          cases rest0 with
                          | nil => simp at hh
                          | cons d r2 => exact ⟨d, r2, rfl⟩
                        obtain rfl : d = '=' := by simpa using hh
                        rw [dg_star_eq hterm] at h
                        refine token_step IH h ?_ (by decide) ?_ ?_ hp ?_
                        · exact tokenEndOk_of_len (by simp) (by decide) rfl
                        · simp [posLt]
                        · show 1 ≤ p.col + 2
                          omega
                        · intro ha
                          simp only [List.all_cons, Bool.and_eq_true] at ha
                          exact ⟨by decide, ha.2.2⟩
                      · rw [dg_star hterm hh] at h
                        refine token_step IH h ?_ (by decide) ?_ ?_ hp ?_
                        · exact tokenEndOk_of_len (by simp) (by decide) rfl
                        · simp [posLt, stepCol]
                        · exact Nat.succ_le_succ (Nat.zero_le _)
                        · intro ha
                          simp only [List.all_cons, Bool.and_eq_true] at ha
                          exact ⟨by decide, ha.2⟩
                    · by_cases hda : c = '-'
                      · subst hda
                        match rest0 with
                        | [] =>
                          rw [dg_dash hterm (by simp) (by simp) (by simp)] at h
                          refine token_step IH h ?_ (by decide) ?_ ?_ hp ?_
                          · exact tokenEndOk_of_len (by simp) (by decide) rfl
                          · simp [posLt, stepCol]
                          · exact Nat.succ_le_succ (Nat.zero_le _)
                          · intro ha
                            exact ⟨by decide, rfl⟩
                        | d :: r2 =>
                          by_cases hd : d = '>' ∨ d = '-' ∨ d = '='
                          · rw [dg_dash_merge hterm hd] at h
                            have hdn : ¬(d = '\n') := by
                              rcases hd with rfl | rfl | rfl <;> decide
                            have hbnl : noNewline (String.mk ['-', d]) = true := by
                              simp [noNewline, hdn]
                            refine token_step IH h ?_ hbnl ?_ ?_ hp ?_
                            · exact tokenEndOk_of_len (by simp) hbnl rfl
                            · simp [posLt]
                            · show 1 ≤ p.col + 2
                              omega
                            · intro ha
                              simp only [List.all_cons, Bool.and_eq_true] at ha
                              refine ⟨?_, ha.2.2⟩
                              simpa [asciiStr] using
                                And.intro (by decide : asciiChar '-' = true) ha.2.1
                          · have hd1 : (d :: r2).head? ≠ some '>' := by
                              simp
                              intro hx
                              exact hd (Or.inl hx)
                            have hd2 : (d :: r2).head? ≠ some '-' := by
                              simp
                              intro hx
                              exact hd (Or.inr (Or.inl hx))
                            have hd3 : (d :: r2).head? ≠ some '=' := by
                              simp
                              intro hx
                              exact hd (Or.inr (Or.inr hx))
                            rw [dg_dash hterm hd1 hd2 hd3] at h
                            refine token_step IH h ?_ (by decide) ?_ ?_ hp ?_
                            · exact tokenEndOk_of_len (by simp) (by decide) rfl
                            · simp [posLt, stepCol]
                            · exact Nat.succ_le_succ (Nat.zero_le _)
                            · intro ha
                              simp only [List.all_cons, Bool.and_eq_true] at ha
                              exact ⟨by decide,
                                by simp only [List.all_cons, Bool.and_eq_true]
                                   exact ha.2⟩
                      · by_cases hsl : c = '/'
                        · subst hsl
                          match rest0 with
                          | [] =>
                            rw [dg_slash hterm (by simp) (by simp)] at h
                            refine token_step IH h ?_ (by decide) ?_ ?_ hp ?_
                            · exact tokenEndOk_of_len (by simp) (by decide) rfl
                            · simp [posLt, stepCol]
                            · exact Nat.succ_le_succ (Nat.zero_le _)
                            · intro ha
                              exact ⟨by decide, rfl⟩
                          | d :: r2 =>
                            by_cases hds : d = '/'
                            · subst hds
                              rw [dg_comment hterm] at h
                              have hbnl : noNewline (String.mk ('/' :: '/' ::
                                  r2.takeWhile (fun ch => !(ch = '\n' : Bool)))) = true := by
                                simp only [noNewline, List.all_cons, Bool.and_eq_true]
                                exact ⟨by decide, by decide,
                                  all_takeWhile_pred (fun c hx => hx)⟩
                              refine token_step IH h ?_ hbnl ?_ ?_ hp ?_
                              · refine tokenEndOk_of_len (by simp) hbnl ?_
                                simp
                                omega
                              · simp [posLt]
                                omega
                              · show 1 ≤ p.col + 2 + _
                                omega
                              · intro ha
                                simp only [List.all_cons, Bool.and_eq_true] at ha
                                refine ⟨?_, all_dropWhile_of_all ha.2.2⟩
                                simpa [asciiStr] using
                                  And.intro ha.1 (And.intro ha.2.1
                                    (all_takeWhile_of_all ha.2.2))
                            · by_cases hdb : d = '*'
                              · subst hdb
                                rw [dg_block_comment hterm] at h
                                simp at h
                              · have hx1 : (d :: r2).head? ≠ some '/' := by simpa using hds
                                have hx2 : (d :: r2).head? ≠ some '*' := by simpa using hdb
                                rw [dg_slash hterm hx1 hx2] at h
                                refine token_step IH h ?_ (by decide) ?_ ?_ hp ?_
                                · exact tokenEndOk_of_len (by simp) (by decide) rfl
                                · simp [posLt, stepCol]
                                · exact Nat.succ_le_succ (Nat.zero_le _)
                                · intro ha
                                  simp only [List.all_cons, Bool.and_eq_true] at ha
                                  exact ⟨by decide,
                                    by simp only [List.all_cons, Bool.and_eq_true]
                                       exact ha.2⟩
                        · by_cases hqu : c = '"'
                          · subst hqu
                            cases hscan : scanString rest0 (stepCol p) with
                            | ok val =>
                              obtain ⟨text, qq, rest2⟩ := val
                              rw [dg_quote hterm] at h
                              simp only [hscan] at h
                              obtain ⟨hqq, htnl, hta⟩ :=
                                scanString_ok rest0 (stepCol p) text qq rest2 hscan
                              refine token_step IH h ?_ htnl ?_ ?_ hp ?_
                              · refine tokenEndOk_string htnl ?_
                                rw [hqq]
                                simp [stepCol]
                                omega
                              · rw [hqq]
                                simp [posLt, stepCol]
                                omega
                              · rw [hqq]
                                show 1 ≤ (stepCol _).col
                                simp [stepCol]
                              · intro ha
                                simp only [List.all_cons, Bool.and_eq_true] at ha
                                exact hta ha.2
                            | err e =>
                              rw [dg_quote hterm] at h
                              simp only [hscan] at h
                              simp at h
                            | panic m =>
                              rw [dg_quote hterm] at h
                              simp only [hscan] at h
                              simp at h
                          · cases hg : GroupType.from_start_char c with
                            | some gt =>
                              rw [dg_open hterm hg] at h
                              cases hnest : do_group fuel rest0 (stepCol p) (some gt.end_char) with
                              | ok val =>
                                obtain ⟨inner, inner_end, rest2⟩ := val
                                simp only [hnest] at h
                                obtain ⟨ls2, rfl, hcont⟩ := consLex_ok h
                                obtain ⟨htokI, hnlI, hascI, hcolsI, q1, hq1, hq1c, hshapeI⟩ :=
                                  IH rest0 (stepCol p) (some gt.end_char) _ hnest
                                    (Nat.succ_le_succ (Nat.zero_le _))
                                have hsh : inner_end.row = q1.row ∧ inner_end.col = q1.col + 1 := by
                                  rcases hshapeI with ⟨hn, _⟩ | ⟨_, hr, hc2⟩
                                  · simp at hn
                                  · exact ⟨hr, hc2⟩
                                obtain ⟨hshr, hshc⟩ := hsh
                                have hcolIE : 1 ≤ inner_end.col := by omega
                                obtain ⟨htokC, hnlC, hascC, hcolsC, q2, hq2, hq2c, hshapeC⟩ :=
                                  IH rest2 inner_end ec _ hcont hcolIE
                                refine ⟨?_, ?_, ?_, ?_, q2, ?_, hq2c, hshapeC⟩
                                · simp [tokensOkList, tokensOk, htokI, htokC]
                                · simp [bodiesOkList, bodiesOk, hnlI, hnlC]
                                · intro ha
                                  simp only [List.all_cons, Bool.and_eq_true] at ha
                                  obtain ⟨hbI, hr2⟩ := hascI ha.2
                                  obtain ⟨hbC, hr⟩ := hascC hr2
                                  exact ⟨by simp [bodiesOkList, bodiesOk, hbI, hbC], hr⟩
                                · simp [colsOkList, colsOk, hp, hcolIE, hcolsI, hcolsC]
                                · have hstep : posLe (stepCol p) q1 = true := spansOk_le hq1
                                  have hlt2 : posLt p inner_end = true := by
                                    simp [posLe, stepCol] at hstep
                                    simp [posLt]
                                    omega
                                  have hcol2 : 2 ≤ inner_end.col := by omega
                                  have hq1' : (⟨inner_end.row, inner_end.col - 1⟩ : Pos) = q1 := by
                                    obtain ⟨q1r, q1c⟩ := q1
                                    simp at hshr hshc ⊢
                                    omega
                                  have hchainI : spansOk ⟨p.row, p.col + 1⟩ inner
                                      ⟨inner_end.row, inner_end.col - 1⟩ = true := by
                                    rw [hq1']
                                    exact hq1
                                  simp [spansOk, posLe_refl, spanOk, Lexeme.span, hlt2,
                                    hcol2, hchainI, hq2]
                              | err e =>
                                simp only [hnest] at h
                                simp at h
                              | panic m =>
                                simp only [hnest] at h
                                simp at h
                            | none =>
                              rw [dg_unexpected hterm hsp hnl (by simpa using hid)
                                (by simpa using hnum) hpu hco hst hda hsl hqu hg] at h
                              simp at h



theorem lex_sound {s : String} {lexs : List Lexeme} (h : lex s = .ok lexs) :
    ∃ p' rest, DGconc s.data ⟨1, 1⟩ none (lexs, p', rest) := by
  unfold lex at h
  cases hdg : do_group (s.length + 1) s.data ⟨1, 1⟩ none with
  | ok out =>
    obtain ⟨ls, p', rest⟩ := out
    rw [hdg] at h
    simp at h
    subst h
    exact ⟨p', rest, do_group_sound _ _ _ _ _ hdg (le_refl 1)⟩
  | err e =>
    rw [hdg] at h
    simp at h
  | panic m =>
    rw [hdg] at h
    simp at h

/-- C4, as amended: in every tree returned by `lex`, advancing a
token's start position character-by-character over its captured body
(`advanceStr`, newline starting a new row, any other character moving
one column) yields exactly the recorded end position — except for
`String` tokens, whose end position lies exactly two further columns
along, because the span covers the two quote characters while the body
omits them. -/
theorem token_position_bookkeeping (s : String) (lexs : List Lexeme)
    (h : lex s = .ok lexs) : tokensOkList lexs = true := by
  obtain ⟨p', rest, conc⟩ := lex_sound h
  exact conc.1

/-- Witness for `token_position_bookkeeping` at input `x "ab"`. -/
theorem token_position_bookkeeping_witness :
    tokensOkList [.token ⟨⟨1, 1⟩, ⟨1, 2⟩⟩ ⟨.Id, "x"⟩,
      .token ⟨⟨1, 3⟩, ⟨1, 7⟩⟩ ⟨.String, "ab"⟩] = true :=
  token_position_bookkeeping "x \"ab\"" _ rfl

/-- C8: in every tree returned by `lex`, sibling spans at each nesting
level are chained in strictly increasing, non-overlapping document
order (`spansOk`), and every group's children lie strictly inside the
group's delimiters — chained from one column after the group's start to
one column before its end — which forces every descendant span inside
every ancestor group's span. -/
theorem sibling_spans_ordered (s : String) (lexs : List Lexeme)
    (h : lex s = .ok lexs) : ∃ q, spansOk ⟨1, 1⟩ lexs q = true := by
  obtain ⟨p', rest, conc⟩ := lex_sound h
  obtain ⟨q, hq, _, _⟩ := conc.2.2.2.2
  exact ⟨q, hq⟩

/-- Witness for `sibling_spans_ordered` at input `(a [b])`. -/
theorem sibling_spans_ordered_witness :
    ∃ q, spansOk ⟨1, 1⟩ [.group ⟨⟨1, 1⟩, ⟨1, 8⟩⟩ .Paren
      [.token ⟨⟨1, 2⟩, ⟨1, 3⟩⟩ ⟨.Id, "a"⟩,
       .group ⟨⟨1, 4⟩, ⟨1, 7⟩⟩ .Bracket [.token ⟨⟨1, 5⟩, ⟨1, 6⟩⟩ ⟨.Id, "b"⟩]]] q = true :=
  sibling_spans_ordered "(a [b])" _ rfl



theorem padTo_of_le {p q : Pos} (hle : posLe p q = true) (hq : 1 ≤ q.col) :
    ∃ s, padTo p q = some (s, q) := by
  unfold padTo
  by_cases heq : p = q
  · subst heq
    simp
  · simp [posLe] at hle
    rcases hle with hrow | ⟨hrow, hcol⟩
    · rw [if_neg heq, if_pos hrow, if_pos hq]
      exact ⟨_, rfl⟩
    · have hlt : p.col < q.col := by
        rcases Nat.lt_or_ge p.col q.col with hx | hx
        · exact hx
        · exfalso
          apply heq
          obtain ⟨pr, pc⟩ := p
          obtain ⟨qr, qc⟩ := q
          simp at hrow hcol hx
          simp only [Pos.mk.injEq]
          omega
      rw [if_neg heq, if_neg (by omega), if_pos ⟨hrow, hlt⟩]
      exact ⟨_, rfl⟩

theorem size_pos (l : Lexeme) : 1 ≤ Lexeme.size l := by
  cases l <;> simp [Lexeme.size]

theorem colsOk_bounds {l : Lexeme} (h : colsOk l = true) :
    1 ≤ l.span.start.col ∧ 1 ≤ l.span.stop.col := by
  cases l with
  | token sp t =>
    simp [colsOk, Lexeme.span] at *
    exact h
  | group sp gt body =>
    simp [colsOk, Lexeme.span] at *
    exact ⟨h.1.1, h.1.2⟩

theorem highlight_group_total : ∀ fuel (ls : List Lexeme) (p q : Pos),
    Lexeme.sizeList ls < fuel →
    spansOk p ls q = true →
    tokensOkList ls = true →
    bodiesOkList noNewline ls = true →
    bodiesOkList asciiStr ls = true →
    colsOkList ls = true →
    ∃ s r, highlight_group fuel p ls = some (s, r) ∧ posLe r q = true := by
  intro fuel
  induction fuel with
  | zero =>
    intro ls p q hf
    omega
  | succ fuel IH =>
    intro ls p q hf hch htok hnl hasc hcols
    match ls with
    | [] =>
      refine ⟨"", p, rfl, ?_⟩
      simpa [spansOk] using hch
    | l :: ls2 =>
      simp only [spansOk, Bool.and_eq_true] at hch
      obtain ⟨⟨hple, hok⟩, hch2⟩ := hch
      simp only [tokensOkList, Bool.and_eq_true] at htok
      obtain ⟨htok1, htok2⟩ := htok
      simp only [bodiesOkList, Bool.and_eq_true] at hnl hasc
      obtain ⟨hnl1, hnl2⟩ := hnl
      obtain ⟨hasc1, hasc2⟩ := hasc
      simp only [colsOkList, Bool.and_eq_true] at hcols
      obtain ⟨hcols1, hcols2⟩ := hcols
      obtain ⟨hsc, hec⟩ := colsOk_bounds hcols1
      obtain ⟨pad, hpad⟩ := padTo_of_le hple hsc
      simp only [Lexeme.sizeList] at hf
      cases l with
      | token sp t =>
        simp only [Lexeme.span] at hpad hch2
        have hszt : Lexeme.sizeList ls2 < fuel := by
          have := size_pos (Lexeme.token sp t)
          omega
        obtain ⟨s3, r, hg2, hr⟩ := IH ls2 sp.stop q hszt hch2 htok2 hnl2 hasc2 hcols2
        simp only [tokensOk] at htok1
        simp only [bodiesOk] at hnl1 hasc1
        have hbl : byteLen t.body = t.body.length := byteLen_ascii hasc1
        have hadv := advanceStr_no_newline hnl1 sp.start
        by_cases hty : t.ty = TokenType.String
        · have hstop : (⟨sp.start.row, sp.start.col + byteLen t.body + 2⟩ : Pos) = sp.stop := by
            rw [hbl]
            obtain ⟨ty, body⟩ := t
            simp only at hty
            subst hty
            simp [tokenEndOk, hadv] at htok1
            rw [htok1]
          refine ⟨pad ++ (tokenColor t ++ "\"" ++ t.body ++ "\"") ++ s3, r, ?_, hr⟩
          simp [highlight_group, Lexeme.span, hpad, hty, hstop, hg2]
        · have hstop : (⟨sp.start.row, sp.start.col + byteLen t.body⟩ : Pos) = sp.stop := by
            rw [hbl]
            obtain ⟨ty, body⟩ := t
            simp only at hty
            cases ty <;> simp [tokenEndOk, hadv] at htok1 <;> first
              | (exact absurd rfl hty)
              | (rw [htok1])
          refine ⟨pad ++ (tokenColor t ++ t.body) ++ s3, r, ?_, hr⟩
          simp [highlight_group, Lexeme.span, hpad, hty, hstop, hg2]
      | group sp gt body =>
        simp only [Lexeme.span] at hpad hch2
        simp only [spanOk, Bool.and_eq_true] at hok
        obtain ⟨⟨hltg, hc2⟩, hchI⟩ := hok
        rw [decide_eq_true_eq] at hc2
        simp only [tokensOk] at htok1
        simp only [bodiesOk] at hnl1 hasc1
        simp only [colsOk, Bool.and_eq_true] at hcols1
        obtain ⟨⟨_, _⟩, hcolsB⟩ := hcols1
        have hsizeB : Lexeme.sizeList body < fuel := by
          simp only [Lexeme.size] at hf
          omega
        obtain ⟨sI, p2, hgI, hp2⟩ :=
          IH body (stepCol sp.start) ⟨sp.stop.row, sp.stop.col - 1⟩ hsizeB hchI
            htok1 hnl1 hasc1 hcolsB
        obtain ⟨padI, hpadI⟩ := padTo_of_le hp2 (by simp; omega)
        have hstep : stepCol (⟨sp.stop.row, sp.stop.col - 1⟩ : Pos) = sp.stop := by
          show (⟨sp.stop.row, sp.stop.col - 1 + 1⟩ : Pos) = ⟨sp.stop.row, sp.stop.col⟩
          congr 1
          omega
        have hszt : Lexeme.sizeList ls2 < fuel := by
          have := size_pos (Lexeme.group sp gt body)
          omega
        obtain ⟨s3, r, hg2, hr⟩ := IH ls2 sp.stop q hszt hch2 htok2 hnl2 hasc2 hcols2
        have hcomp : ∃ s0, highlight_group (fuel + 1) p
            (Lexeme.group sp gt body :: ls2) = some (s0, r) := by
          simp [highlight_group, Lexeme.span, hpad, hgI, hpadI, hstep, hg2]
        obtain ⟨s0, hcomp⟩ := hcomp
        exact ⟨s0, r, hcomp, hr⟩

/-- C9: for every tree that `lex` returns on an all-ASCII input, the
highlighter runs to completion and returns a string — it never reaches
its `panic!("invalid span")` invariant check (and never underflows its
cursor), because for single-byte bodies the byte length by which it
advances its column coincides with the lexer's per-character column
accounting. -/
theorem highlight_ascii_no_panic (s : String) (lexs : List Lexeme)
    (hascii : s.data.all asciiChar = true) (h : lex s = .ok lexs) :
    ∃ out, highlight lexs = some out := by
  obtain ⟨p', rest, conc⟩ := lex_sound h
  obtain ⟨htok, hnl, hasc, hcols, q, hq, hqc, _⟩ := conc
  obtain ⟨hbody, _⟩ := hasc hascii
  obtain ⟨s0, r, hg, _⟩ := highlight_group_total (Lexeme.sizeList lexs + 1) lexs
    ⟨1, 1⟩ q (by omega) hq htok hnl hbody hcols
  unfold highlight
  rw [hg]
  exact ⟨s0 ++ "\x1B[0m", rfl⟩

/-- Witness for `highlight_ascii_no_panic` at input `fn (x)`. -/
theorem highlight_ascii_no_panic_witness :
    ∃ out, highlight [.token ⟨⟨1, 1⟩, ⟨1, 3⟩⟩ ⟨.Id, "fn"⟩,
      .group ⟨⟨1, 4⟩, ⟨1, 7⟩⟩ .Paren [.token ⟨⟨1, 5⟩, ⟨1, 6⟩⟩ ⟨.Id, "x"⟩]] =
      some out :=
  highlight_ascii_no_panic "fn (x)" _ (by decide) rfl



theorem str_cons_newline (l : List Char) : "\n" ++ String.mk l = String.mk ('\n' :: l) := rfl

theorem str_cons_space (l : List Char) : " " ++ String.mk l = String.mk (' ' :: l) := rfl

theorem padTo_eq_self (p : Pos) : padTo p p = some ("", p) := by
  simp [padTo]

theorem padTo_step_row {p q : Pos} (hne : p ≠ q) (hrow : p.row < q.row) :
    padTo p q = (padTo ⟨p.row + 1, 1⟩ q).map (fun sr => ("\n" ++ sr.1, sr.2)) := by
  obtain ⟨pr, pc⟩ := p
  obtain ⟨qr, qc⟩ := q
  simp only at hrow
  have hner : pr ≠ qr := by omega
  by_cases hq1 : 1 ≤ qc
  · rcases Nat.lt_or_ge (pr + 1) qr with h2 | h2
    · have hner2 : pr + 1 ≠ qr := by omega
      have hk : qr - pr = (qr - (pr + 1)) + 1 := by omega
      simp [padTo, Pos.mk.injEq, hner, hner2, hq1, hrow, h2, hk,
        List.replicate_succ, str_cons_newline]
    · have hre : qr = pr + 1 := by omega
      subst hre
      by_cases hc1 : qc = 1
      · subst hc1
        simp [padTo, Pos.mk.injEq, hner, hrow]
      · have hgt : 1 < qc := by omega
        have hc1' : ¬(1 = qc) := by omega
        simp [padTo, Pos.mk.injEq, hner, hc1, hc1', hrow, hq1, hgt,
          Nat.add_sub_cancel_left, List.replicate_succ, str_cons_newline]
  · have hq0 : qc = 0 := by omega
    subst hq0
    rcases Nat.lt_or_ge (pr + 1) qr with h2 | h2
    · simp [padTo, Pos.mk.injEq, hner, hrow, h2]
    · have hre : qr = pr + 1 := by omega
      subst hre
      simp [padTo, Pos.mk.injEq, hner, hrow]

theorem padTo_step_col {p q : Pos} (hne : p ≠ q) (hrow : ¬p.row < q.row)
    (hcol : p.col < q.col) :
    padTo p q = (padTo ⟨p.row, p.col + 1⟩ q).map (fun sr => (" " ++ sr.1, sr.2)) := by
  obtain ⟨pr, pc⟩ := p
  obtain ⟨qr, qc⟩ := q
  simp only at hrow hcol
  by_cases hr2 : pr = qr
  · subst hr2
    rcases Nat.lt_or_ge (pc + 1) qc with h2 | h2
    · have hk : qc - pc = (qc - (pc + 1)) + 1 := by omega
      have hne1 : pc ≠ qc := by omega
      have hne2 : pc + 1 ≠ qc := by omega
      simp [padTo, Pos.mk.injEq, hrow, hcol, hne1, hne2, h2, hk,
        List.replicate_succ, str_cons_space]
    · have hce : qc = pc + 1 := by omega
      subst hce
      have hne1 : pc ≠ pc + 1 := by omega
      simp [padTo, Pos.mk.injEq, hrow, hcol, hne1]
  · simp [padTo, Pos.mk.injEq, hrow, hr2, hne]

theorem padTo_stuck {p q : Pos} (hne : p ≠ q) (hrow : ¬p.row < q.row)
    (hcol : ¬p.col < q.col) : padTo p q = none := by
  simp [padTo, hne, hrow]
  intro hr
  omega


end Cannon
